import Mathlib

/-!
Verification of the label-set algebra of `staging/src/k8s.io/apimachinery/pkg/labels/labels.go`.

Modelling choices:
* Go strings are modelled as `List Char` (`Str`).  Go compares strings by
  their UTF-8 bytes; on valid strings this coincides with the code-point
  lexicographic order, which is the `LinearOrder` on `List Char`.
* A Go `map[string]string` (`Set` in the source) is modelled as an
  association list `LabelSet` whose key list is duplicate-free
  (`NodupKeys`), the invariant every Go map maintains.  The order of the
  list plays the role of the map's (unspecified) iteration order, so a
  property that must be iteration-order independent is stated for all
  permutations of the entry list.
* Map indexing is `lookupVal`, map assignment is `insertVal` (overwrite in
  place or append).
-/

/-- Go `string`, modelled as its list of characters. -/
abbrev Str := List Char

/-- The source type `Set` (`map[string]string`): an association list whose
keys are unique; named `LabelSet` because `Set` is taken by Mathlib. -/
abbrev LabelSet := List (Str × Str)

/-- Go map indexing `ls[label]`, returning `none` when the key is absent. -/
def lookupVal : LabelSet → Str → Option Str
  | [], _ => none
  | kv :: rest, key => if key = kv.1 then some kv.2 else lookupVal rest key

/-- The key list of a label set. -/
def keys (ls : LabelSet) : List Str := ls.map Prod.fst

/-- The Go-map invariant: no duplicate keys. -/
def NodupKeys (ls : LabelSet) : Prop := (keys ls).Nodup

instance (ls : LabelSet) : Decidable (NodupKeys ls) := by
  unfold NodupKeys; infer_instance

/-- Source `func (ls Set) Has(label string) bool`. -/
def LabelSet.Has (ls : LabelSet) (label : Str) : Bool := (lookupVal ls label).isSome

/-- Source `func (ls Set) Get(label string) string`: value for the label, or
the empty string when absent. -/
def LabelSet.Get (ls : LabelSet) (label : Str) : Str := (lookupVal ls label).getD []

/-- Source `func (ls Set) Lookup(label string) (string, bool)`. -/
def LabelSet.Lookup (ls : LabelSet) (label : Str) : Str × Bool :=
  ((lookupVal ls label).getD [], (lookupVal ls label).isSome)

/-- Go map assignment `ls[k] = v`: overwrite the binding in place when the
key is present, otherwise add a fresh binding. -/
def insertVal : LabelSet → Str → Str → LabelSet
  | [], k, v => [(k, v)]
  | kv :: rest, k, v => if k = kv.1 then (k, v) :: rest else kv :: insertVal rest k v

/-- One rendered entry `key+"="+value` of `Set.String`. -/
def renderEntry (kv : Str × Str) : Str := kv.1 ++ '=' :: kv.2

/-- Go `strings.Join(parts, sep)` for a one-character separator (the
source only joins on the one-byte separator `","`). -/
def joinChar (sep : Char) : List Str → Str
  | [] => []
  | [s] => s
  | s :: t :: rest => s ++ sep :: joinChar sep (t :: rest)

/-- Source `func (ls Set) String() string`: render every entry as
`key+"="+value`, sort the rendered strings (`sort.StringSlice(...).Sort()`),
join with commas. -/
def LabelSet.String (ls : LabelSet) : Str :=
  joinChar ',' (List.insertionSort (· ≤ ·) (ls.map renderEntry))

/-- Source `func FormatLabels(labelMap map[string]string) string`. -/
def FormatLabels (labelMap : LabelSet) : Str :=
  let l := LabelSet.String labelMap
  if l = [] then "<none>".data else l

/-- Source `func Conflicts(labels1, labels2 Set) bool`: iterate the smaller
map, probe the bigger one, report a shared key with differing values. -/
def Conflicts (labels1 labels2 : LabelSet) : Bool :=
  let small := if labels2.length < labels1.length then labels2 else labels1
  let big := if labels2.length < labels1.length then labels1 else labels2
  small.any fun kv =>
    match lookupVal big kv.1 with
    | some val => decide (val ≠ kv.2)
    | none => false

/-- Source `func Merge(labels1, labels2 Set) Set`: start from a fresh empty
map, copy `labels1` in, then copy `labels2` over it. -/
def Merge (labels1 labels2 : LabelSet) : LabelSet :=
  let mergedMap : LabelSet := []
  let mergedMap := labels1.foldl (fun acc kv => insertVal acc kv.1 kv.2) mergedMap
  labels2.foldl (fun acc kv => insertVal acc kv.1 kv.2) mergedMap

/-- Source `func Equals(labels1, labels2 Set) bool`: equal sizes and every
entry of `labels1` present in `labels2` with the same value. -/
def Equals (labels1 labels2 : LabelSet) : Bool :=
  if labels1.length ≠ labels2.length then false
  else labels1.all fun kv =>
    match lookupVal labels2 kv.1 with
    | some value => decide (value = kv.2)
    | none => false

/-- Go `unicode.IsSpace`: the Unicode White_Space code points stripped by
`strings.TrimSpace` (U+0009-U+000D, U+0020, U+0085, U+00A0, U+1680,
U+2000-U+200A, U+2028, U+2029, U+202F, U+205F, U+3000). -/
def goIsSpace (c : Char) : Bool :=
  c = ' ' || c = '\t' || c = '\n' || c = '\u000b' || c = '\u000c' || c = '\r' ||
    c = '\u0085' || c = '\u00A0' || c = '\u1680' ||
    ('\u2000' ≤ c && c ≤ '\u200A') ||
    c = '\u2028' || c = '\u2029' || c = '\u202F' || c = '\u205F' || c = '\u3000'

/-- Strip leading whitespace. -/
def trimLeftSpace : Str → Str
  | [] => []
  | c :: rest => if goIsSpace c then trimLeftSpace rest else c :: rest

/-- Go `strings.TrimSpace`: strip whitespace from both ends. -/
def trimSpace (s : Str) : Str :=
  ((trimLeftSpace ((trimLeftSpace s).reverse)).reverse)

/-- Tail of Go `strings.Split` for a one-character separator:
`acc` holds the (reversed) characters of the current field. -/
def splitCharAux (sep : Char) : Str → Str → List Str
  | [], acc => [acc.reverse]
  | c :: rest, acc =>
    if c = sep then acc.reverse :: splitCharAux sep rest []
    else splitCharAux sep rest (c :: acc)

/-- Go `strings.Split(s, sep)` for a one-character separator (the source
only splits on the one-byte separators `","` and `"="`). -/
def splitChar (sep : Char) (s : Str) : List Str := splitCharAux sep s []

/-- The error value of `ConvertSelectorToLabelsMap`: either the
`invalid selector` formatting error carrying the offending split, or an
error produced by the external validator.

Modelled from the spec: `validateLabelKey` / `validateLabelValue` are the
external Validator collaborator, absent from the visible source; they are
abstracted as function parameters returning `Option ε`. -/
inductive ParseErr (ε : Type) where
  | invalidSelector (parts : List Str)
  | validation (e : ε)
deriving DecidableEq

/-- The `for _, label := range labels` loop of `ConvertSelectorToLabelsMap`,
with the accumulating map made explicit. -/
def parseLoop (vk : Str → Option ε) (vv : Str → Str → Option ε) :
    List Str → LabelSet → LabelSet × Option (ParseErr ε)
  | [], labelsMap => (labelsMap, none)
  | label :: rest, labelsMap =>
    match splitChar '=' label with
    | [k0, v0] =>
      let key := trimSpace k0
      match vk key with
      | some e => (labelsMap, some (ParseErr.validation e))
      | none =>
        let value := trimSpace v0
        match vv key value with
        | some e => (labelsMap, some (ParseErr.validation e))
        | none => parseLoop vk vv rest (insertVal labelsMap key value)
    | l => (labelsMap, some (ParseErr.invalidSelector l))

/-- Source `func ConvertSelectorToLabelsMap(selector string, ...) (Set, error)`,
parameterised by the external validator callbacks (see `ParseErr`). -/
def ConvertSelectorToLabelsMap (vk : Str → Option ε) (vv : Str → Str → Option ε)
    (selector : Str) : LabelSet × Option (ParseErr ε) :=
  if selector.length = 0 then ([], none)
  else parseLoop vk vv (splitChar ',' selector) []

/-- Statement-side companion of `parseLoop`: the `(key, value)` pairs the
loop would extract from a token list, or `none` as soon as a token is
malformed or rejected by a validator. -/
def tokenPairs (vk : Str → Option ε) (vv : Str → Str → Option ε) :
    List Str → Option (List (Str × Str))
  | [] => some []
  | label :: rest =>
    match splitChar '=' label with
    | [k0, v0] =>
      match vk (trimSpace k0), vv (trimSpace k0) (trimSpace v0) with
      | none, none =>
        (tokenPairs vk vv rest).map (fun ps => (trimSpace k0, trimSpace v0) :: ps)
      | _, _ => none
    | _ => none

-- Sanity checks of the embedding on concrete data.
example : splitChar ',' "a=b,c=d".data = ["a=b".data, "c=d".data] := by decide
example : splitChar ',' [] = [[]] := rfl
example : splitChar '=' "a=b=c".data = ["a".data, "b".data, "c".data] := by decide
example : trimSpace "  a b ".data = "a b".data := by decide
example : LabelSet.String [("b".data, "2".data), ("a".data, "1".data)] = "a=1,b=2".data := by
  decide
example : LabelSet.String [("a".data, "x".data), ("a-b".data, "y".data)] =
    "a-b=y,a=x".data := by decide
example :
    ConvertSelectorToLabelsMap (fun _ => none) (fun _ _ => (none : Option Unit))
      " a = b ,c=d".data = ([("a".data, "b".data), ("c".data, "d".data)], none) := by decide
example :
    (ConvertSelectorToLabelsMap (fun _ => none) (fun _ _ => (none : Option Unit))
      "a=b=c".data).2 = some (ParseErr.invalidSelector ["a".data, "b".data, "c".data]) := by
  decide
example : trimSpace ('\u3000' :: "a".data) = "a".data := by decide
example :
    ConvertSelectorToLabelsMap (fun _ => none) (fun _ _ => (none : Option Unit))
      ('\u3000' :: "a=1,a=2".data) = ([("a".data, "2".data)], none) := by decide

/-! ### Basic lemmas about lookup, keys and insertion -/

theorem mem_keys_of_mem {ls : LabelSet} {kv : Str × Str} (h : kv ∈ ls) :
    kv.1 ∈ keys ls :=
  List.mem_map_of_mem Prod.fst h

theorem lookupVal_eq_none {ls : LabelSet} {k : Str} :
    lookupVal ls k = none ↔ k ∉ keys ls := by
  induction ls with
  | nil => simp [lookupVal, keys]
  | cons kv rest ih =>
    by_cases hk : k = kv.1
    · simp [lookupVal, hk, keys]
    · simp [lookupVal, hk, keys] at ih ⊢
      exact ih

theorem lookupVal_eq_some : ∀ {ls : LabelSet}, NodupKeys ls → ∀ {k v : Str},
    (lookupVal ls k = some v ↔ (k, v) ∈ ls) := by
  intro ls
  induction ls with
  | nil => intro _ k v; simp [lookupVal]
  | cons kv rest ih =>
    intro nd k v
    obtain ⟨k1, v1⟩ := kv
    have nd1 : k1 ∉ keys rest ∧ NodupKeys rest := by
      simpa [NodupKeys, keys] using nd
    by_cases hk : k = k1
    · subst hk
      rw [show lookupVal ((k, v1) :: rest) k = some v1 from by simp [lookupVal]]
      simp only [List.mem_cons, Prod.mk.injEq, true_and, Option.some.injEq]
      constructor
      · intro h; exact Or.inl h.symm
      · rintro (h | h)
        · exact h.symm
        · exact absurd (mem_keys_of_mem h) nd1.1
    · simp only [lookupVal, if_neg hk, List.mem_cons, Prod.mk.injEq]
      rw [ih nd1.2]
      constructor
      · intro h; exact Or.inr h
      · rintro (⟨h1, _⟩ | h)
        · exact absurd h1 hk
        · exact h

theorem keys_reverse (ls : LabelSet) : keys ls.reverse = (keys ls).reverse := by
  simp [keys, List.map_reverse]

theorem nodupKeys_reverse {ls : LabelSet} (nd : NodupKeys ls) :
    NodupKeys ls.reverse := by
  rw [NodupKeys, keys_reverse, List.nodup_reverse]
  exact nd

theorem lookupVal_reverse {ls : LabelSet} (nd : NodupKeys ls) (k : Str) :
    lookupVal ls.reverse k = lookupVal ls k := by
  cases heq : lookupVal ls k with
  | some v =>
    exact (lookupVal_eq_some (nodupKeys_reverse nd)).2
      (List.mem_reverse.2 ((lookupVal_eq_some nd).1 heq))
  | none =>
    rw [lookupVal_eq_none, keys_reverse, List.mem_reverse]
    exact lookupVal_eq_none.1 heq

theorem lookupVal_isSome_reverse (ls : LabelSet) (k : Str) :
    (lookupVal ls.reverse k).isSome = (lookupVal ls k).isSome := by
  by_cases h : k ∈ keys ls
  · have h1 : lookupVal ls k ≠ none := by rw [Ne, lookupVal_eq_none]; simpa
    have h2 : lookupVal ls.reverse k ≠ none := by
      rw [Ne, lookupVal_eq_none, keys_reverse, List.mem_reverse]; simpa
    cases o1 : lookupVal ls k with
    | none => exact absurd o1 h1
    | some v1 =>
      cases o2 : lookupVal ls.reverse k with
      | none => exact absurd o2 h2
      | some v2 => rfl
  · have h1 : lookupVal ls k = none := lookupVal_eq_none.2 h
    have h2 : lookupVal ls.reverse k = none := by
      rw [lookupVal_eq_none, keys_reverse, List.mem_reverse]; exact h
    rw [h1, h2]

theorem lookupVal_insertVal (m : LabelSet) (k v k0 : Str) :
    lookupVal (insertVal m k v) k0 = if k0 = k then some v else lookupVal m k0 := by
  induction m with
  | nil => simp [insertVal, lookupVal]
  | cons kv rest ih =>
    by_cases hk : k = kv.1
    · subst hk
      simp only [insertVal, if_pos rfl, lookupVal]
      by_cases h0 : k0 = kv.1
      · simp [h0]
      · simp [h0]
    · simp only [insertVal, if_neg hk, lookupVal]
      by_cases h0 : k0 = kv.1
      · have h1 : ¬kv.1 = k := fun h => hk h.symm
        simp [h0, h1]
      · simp [h0, ih]

theorem keys_insertVal (m : LabelSet) (k v : Str) :
    keys (insertVal m k v) = if k ∈ keys m then keys m else keys m ++ [k] := by
  induction m with
  | nil => simp [insertVal, keys]
  | cons kv rest ih =>
    by_cases hk : k = kv.1
    · simp [insertVal, hk, keys]
    · simp only [insertVal, if_neg hk, keys, List.map_cons] at ih ⊢
      rw [ih]
      by_cases hm : k ∈ List.map Prod.fst rest
      · simp [hm, hk]
      · simp [hm, hk]

theorem nodupKeys_insertVal {m : LabelSet} (nd : NodupKeys m) (k v : Str) :
    NodupKeys (insertVal m k v) := by
  have nd2 : (keys m).Nodup := nd
  rw [NodupKeys, keys_insertVal]
  by_cases hm : k ∈ keys m
  · simpa [hm] using nd2
  · simp [hm, List.nodup_append, nd2]

theorem insertVal_of_not_mem {m : LabelSet} {k : Str} (h : k ∉ keys m) (v : Str) :
    insertVal m k v = m ++ [(k, v)] := by
  induction m with
  | nil => simp [insertVal]
  | cons kv rest ih =>
    simp only [keys, List.map_cons, List.mem_cons] at h
    push_neg at h
    simp only [insertVal, if_neg h.1]
    rw [ih]
    · simp
    · simpa [keys] using h.2

/-! ### Folding insertions: the accumulated map of `Merge` and `parseLoop` -/

theorem lookupVal_foldl_insert (ps : List (Str × Str)) (acc : LabelSet) (k : Str) :
    lookupVal (ps.foldl (fun a kv => insertVal a kv.1 kv.2) acc) k =
      match lookupVal ps.reverse k with
      | some v => some v
      | none => lookupVal acc k := by
  induction ps using List.reverseRecOn with
  | nil => simp [lookupVal]
  | append_singleton qs p ih =>
    rw [List.foldl_append, List.foldl_cons, List.foldl_nil, lookupVal_insertVal,
      List.reverse_append]
    simp only [List.reverse_cons, List.reverse_nil, List.nil_append, List.singleton_append]
    rw [show lookupVal (p :: qs.reverse) k
        = if k = p.1 then some p.2 else lookupVal qs.reverse k from by simp [lookupVal]]
    by_cases hk : k = p.1
    · simp [hk]
    · simp only [if_neg hk]
      exact ih

theorem lookupVal_foldl_insert_nil (ps : List (Str × Str)) (k : Str) :
    lookupVal (ps.foldl (fun a kv => insertVal a kv.1 kv.2) []) k =
      lookupVal ps.reverse k := by
  rw [lookupVal_foldl_insert]
  cases lookupVal ps.reverse k <;> simp [lookupVal]

theorem nodupKeys_foldl_insert (ps : List (Str × Str)) {acc : LabelSet}
    (nd : NodupKeys acc) :
    NodupKeys (ps.foldl (fun a kv => insertVal a kv.1 kv.2) acc) := by
  induction ps generalizing acc with
  | nil => exact nd
  | cons p rest ih => exact ih (nodupKeys_insertVal nd p.1 p.2)

theorem foldl_insert_nil_of_nodupKeys : ∀ {ps : List (Str × Str)}, NodupKeys ps →
    ps.foldl (fun a kv => insertVal a kv.1 kv.2) [] = ps := by
  intro ps
  induction ps using List.reverseRecOn with
  | nil => intro _; rfl
  | append_singleton qs p ih =>
    intro nd
    have h1 : NodupKeys qs ∧ p.1 ∉ keys qs := by
      have h2 := nd
      rw [NodupKeys, keys, List.map_append] at h2
      simp only [List.map_cons, List.map_nil] at h2
      rw [List.nodup_append] at h2
      exact ⟨h2.1, fun hm => h2.2.2 hm (by simp)⟩
    rw [List.foldl_append, ih h1.1, List.foldl_cons, List.foldl_nil,
      insertVal_of_not_mem h1.2]

/-! ### Permutations of label sets -/

theorem nodupKeys_of_perm {a b : LabelSet} (h : a.Perm b) (nd : NodupKeys a) :
    NodupKeys b :=
  ((h.map Prod.fst).nodup_iff).1 nd

theorem lookupVal_of_perm {a b : LabelSet} (h : a.Perm b) (nd : NodupKeys a) (k : Str) :
    lookupVal a k = lookupVal b k := by
  have ndb : NodupKeys b := nodupKeys_of_perm h nd
  cases heq : lookupVal a k with
  | some v => exact ((lookupVal_eq_some ndb).2 (h.mem_iff.1 ((lookupVal_eq_some nd).1 heq))).symm
  | none =>
    have hk : k ∉ keys a := lookupVal_eq_none.1 heq
    have hkb : k ∉ keys b := fun hm => hk ((h.map Prod.fst).mem_iff.2 hm)
    exact (lookupVal_eq_none.2 hkb).symm

/-! ### Characterisations of `Equals` -/

theorem equals_eq_true_iff_entries (a b : LabelSet) :
    Equals a b = true ↔
      a.length = b.length ∧ ∀ kv ∈ a, lookupVal b kv.1 = some kv.2 := by
  unfold Equals
  by_cases h : a.length = b.length
  · simp only [h, ne_eq, not_true_eq_false, if_false, true_and]
    rw [List.all_eq_true]
    constructor
    · intro hall kv hm
      have := hall kv hm
      cases hl : lookupVal b kv.1 with
      | some value =>
        rw [hl] at this
        simp only [decide_eq_true_eq] at this
        rw [this]
      | none => rw [hl] at this; exact absurd this (by simp)
    · intro hall kv hm
      rw [hall kv hm]
      simp
  · simp [h]

theorem mem_keys_iff_lookup {ls : LabelSet} {k : Str} :
    k ∈ keys ls ↔ lookupVal ls k ≠ none := by
  rw [Ne, lookupVal_eq_none, not_not]

theorem equals_eq_true_iff_lookup {a b : LabelSet}
    (nda : NodupKeys a) (ndb : NodupKeys b) :
    Equals a b = true ↔ ∀ k, lookupVal a k = lookupVal b k := by
  rw [equals_eq_true_iff_entries]
  constructor
  · rintro ⟨hlen, hcont⟩ k
    cases heq : lookupVal a k with
    | some v => exact ((hcont (k, v) ((lookupVal_eq_some nda).1 heq))).symm
    | none =>
      have hka : k ∉ keys a := lookupVal_eq_none.1 heq
      have hsub : keys a ⊆ keys b := by
        intro x hx
        obtain ⟨kv, hkv, hfst⟩ := List.mem_map.1 hx
        rw [mem_keys_iff_lookup]
        rw [← hfst]
        rw [hcont kv hkv]
        simp
      have hperm : (keys a).Perm (keys b) :=
        (List.subperm_of_subset nda hsub).perm_of_length_le
          (by simp [keys, hlen])
      have hkb : k ∉ keys b := fun hm => hka (hperm.mem_iff.2 hm)
      exact (lookupVal_eq_none.2 hkb).symm
  · intro hlook
    have hkeys : ∀ x, x ∈ keys a ↔ x ∈ keys b := by
      intro x
      rw [mem_keys_iff_lookup, mem_keys_iff_lookup, hlook x]
    have hperm : (keys a).Perm (keys b) :=
      (List.perm_ext_iff_of_nodup nda ndb).2 hkeys
    constructor
    · have := hperm.length_eq
      simpa [keys] using this
    · intro kv hm
      rw [← hlook kv.1]
      exact (lookupVal_eq_some nda).2 (by cases kv; exact hm)

theorem equals_eq_true_of_perm {a b : LabelSet} (nd : NodupKeys a) (h : a.Perm b) :
    Equals a b = true := by
  rw [equals_eq_true_iff_entries]
  refine ⟨h.length_eq, fun kv hm => ?_⟩
  exact (lookupVal_eq_some (nodupKeys_of_perm h nd)).2 (h.mem_iff.1 hm)

/-! ### Conflicts -/

theorem conflicts_def (a b : LabelSet) :
    Conflicts a b =
      ((if b.length < a.length then b else a).any fun kv =>
        match lookupVal (if b.length < a.length then a else b) kv.1 with
        | some val => decide (val ≠ kv.2)
        | none => false) := rfl

theorem conflicts_any_iff {small big : LabelSet} (nd : NodupKeys small) :
    (small.any fun kv =>
       match lookupVal big kv.1 with
       | some val => decide (val ≠ kv.2)
       | none => false) = true ↔
      ∃ k v w, lookupVal small k = some v ∧ lookupVal big k = some w ∧ v ≠ w := by
  rw [List.any_eq_true]
  constructor
  · rintro ⟨kv, hm, hf⟩
    cases hl : lookupVal big kv.1 with
    | some val =>
      rw [hl] at hf
      simp only [decide_eq_true_eq] at hf
      exact ⟨kv.1, kv.2, val, (lookupVal_eq_some nd).2 (by cases kv; exact hm), hl,
        fun h => hf h.symm⟩
    | none => rw [hl] at hf; exact absurd hf (by simp)
  · rintro ⟨k, v, w, hs, hb, hvw⟩
    refine ⟨(k, v), (lookupVal_eq_some nd).1 hs, ?_⟩
    rw [show lookupVal big (k, v).1 = some w from hb]
    simpa using fun h => hvw h.symm

theorem conflicts_eq_true_iff {a b : LabelSet} (nda : NodupKeys a) (ndb : NodupKeys b) :
    Conflicts a b = true ↔
      ∃ k v w, lookupVal a k = some v ∧ lookupVal b k = some w ∧ v ≠ w := by
  rw [conflicts_def]
  by_cases h : b.length < a.length
  · simp only [if_pos h]
    rw [conflicts_any_iff ndb]
    constructor
    · rintro ⟨k, v, w, h1, h2, h3⟩; exact ⟨k, w, v, h2, h1, h3.symm⟩
    · rintro ⟨k, v, w, h1, h2, h3⟩; exact ⟨k, w, v, h2, h1, h3.symm⟩
  · simp only [if_neg h]
    exact conflicts_any_iff nda

/-- C2: `Conflicts(a, b)` is true iff some key present in both maps carries
differing values, and `Conflicts` is symmetric although it only iterates
the smaller map. -/
theorem conflicts_iff_exists_and_symm (a b : LabelSet)
    (nda : NodupKeys a) (ndb : NodupKeys b) :
    (Conflicts a b = true ↔
      ∃ k v w, lookupVal a k = some v ∧ lookupVal b k = some w ∧ v ≠ w) ∧
    Conflicts a b = Conflicts b a := by
  refine ⟨conflicts_eq_true_iff nda ndb, ?_⟩
  rw [Bool.eq_iff_iff, conflicts_eq_true_iff nda ndb, conflicts_eq_true_iff ndb nda]
  constructor
  · rintro ⟨k, v, w, h1, h2, h3⟩; exact ⟨k, w, v, h2, h1, h3.symm⟩
  · rintro ⟨k, v, w, h1, h2, h3⟩; exact ⟨k, w, v, h2, h1, h3.symm⟩

/-- Witness for C2 on concrete sets: `{a: x}` conflicts with `{a: y, b: x}`. -/
theorem conflicts_iff_exists_and_symm_witness :
    (Conflicts [("a".data, "x".data)] [("a".data, "y".data), ("b".data, "x".data)] = true ↔
      ∃ k v w, lookupVal [("a".data, "x".data)] k = some v ∧
        lookupVal [("a".data, "y".data), ("b".data, "x".data)] k = some w ∧ v ≠ w) ∧
    Conflicts [("a".data, "x".data)] [("a".data, "y".data), ("b".data, "x".data)] =
      Conflicts [("a".data, "y".data), ("b".data, "x".data)] [("a".data, "x".data)] :=
  conflicts_iff_exists_and_symm _ _ (by decide) (by decide)

/-! ### Merge -/

theorem merge_def (a b : LabelSet) :
    Merge a b =
      b.foldl (fun acc kv => insertVal acc kv.1 kv.2)
        (a.foldl (fun acc kv => insertVal acc kv.1 kv.2) []) := rfl

theorem lookupVal_merge (a b : LabelSet) (k : Str) :
    lookupVal (Merge a b) k =
      match lookupVal b.reverse k with
      | some v => some v
      | none => lookupVal a.reverse k := by
  rw [merge_def, lookupVal_foldl_insert]
  cases lookupVal b.reverse k with
  | some v => rfl
  | none => exact lookupVal_foldl_insert_nil a k

theorem lookupVal_merge_of_nodup {a b : LabelSet}
    (nda : NodupKeys a) (ndb : NodupKeys b) (k : Str) :
    lookupVal (Merge a b) k =
      match lookupVal b k with
      | some v => some v
      | none => lookupVal a k := by
  rw [lookupVal_merge, lookupVal_reverse ndb, lookupVal_reverse nda]

/-- C3: `Merge` is right-biased: on every key of `b` the merged map agrees
with `b`, and on every key of `a` absent from `b` it agrees with `a`. -/
theorem merge_get_right_biased (a b : LabelSet)
    (nda : NodupKeys a) (ndb : NodupKeys b) (k : Str) :
    (k ∈ keys b → (Merge a b).Get k = b.Get k) ∧
    (k ∈ keys a → k ∉ keys b → (Merge a b).Get k = a.Get k) := by
  constructor
  · intro hb
    obtain ⟨w, hw⟩ := Option.ne_none_iff_exists.1 (mem_keys_iff_lookup.1 hb)
    rw [LabelSet.Get, LabelSet.Get, lookupVal_merge_of_nodup nda ndb, ← hw]
  · intro _ hnb
    rw [LabelSet.Get, LabelSet.Get, lookupVal_merge_of_nodup nda ndb,
      lookupVal_eq_none.2 hnb]

/-- Witness for C3: merging `{a: 1, c: 3}` with `{a: 2}` at keys `a` and `c`. -/
theorem merge_get_right_biased_witness :
    ("a".data ∈ keys [("a".data, "2".data)] →
      (Merge [("a".data, "1".data), ("c".data, "3".data)] [("a".data, "2".data)]).Get
        "a".data = LabelSet.Get [("a".data, "2".data)] "a".data) ∧
    ("a".data ∈ keys [("a".data, "1".data), ("c".data, "3".data)] →
      "a".data ∉ keys [("a".data, "2".data)] →
      (Merge [("a".data, "1".data), ("c".data, "3".data)] [("a".data, "2".data)]).Get
        "a".data = LabelSet.Get [("a".data, "1".data), ("c".data, "3".data)] "a".data) :=
  merge_get_right_biased _ _ (by decide) (by decide) _

/-- C10: the key set of `Merge a b` is exactly the union of the key sets:
a key is present in the merged map iff it is present in `a` or in `b`. -/
theorem merge_has_union (a b : LabelSet) (k : Str) :
    (Merge a b).Has k = (a.Has k || b.Has k) := by
  rw [LabelSet.Has, LabelSet.Has, LabelSet.Has, lookupVal_merge]
  rw [← lookupVal_isSome_reverse a k, ← lookupVal_isSome_reverse b k]
  cases lookupVal b.reverse k with
  | some v => simp
  | none => cases lookupVal a.reverse k with
    | some v => rfl
    | none => rfl

/-! ### Merge as heap allocation (frame property)

The Go function writes only into the freshly allocated `mergedMap`.  To
state this, maps live in an append-only heap of `LabelSet`s addressed by
`Nat` references; `heapMerge` performs `Merge` on two references and
returns the extended heap together with the reference of the fresh map. -/

/-- `Merge` lifted to a heap of maps: allocate the merged map at a fresh
reference, leaving every existing cell untouched. -/
def heapMerge (h : List LabelSet) (r1 r2 : Nat) : List LabelSet × Nat :=
  (h ++ [Merge (h.getD r1 []) (h.getD r2 [])], h.length)

/-- C4: `Merge` mutates neither input: after `heapMerge` both argument
references (and every other allocated reference) hold exactly the entries
they held before, and the result lives at a fresh reference distinct from
both arguments. -/
theorem heapMerge_frame (h : List LabelSet) (r1 r2 : Nat)
    (h1 : r1 < h.length) (h2 : r2 < h.length) :
    (heapMerge h r1 r2).1.getD r1 [] = h.getD r1 [] ∧
    (heapMerge h r1 r2).1.getD r2 [] = h.getD r2 [] ∧
    (heapMerge h r1 r2).2 ≠ r1 ∧ (heapMerge h r1 r2).2 ≠ r2 ∧
    (heapMerge h r1 r2).1.getD (heapMerge h r1 r2).2 [] =
      Merge (h.getD r1 []) (h.getD r2 []) ∧
    (∀ r, r < h.length → (heapMerge h r1 r2).1.getD r [] = h.getD r []) := by
  refine ⟨List.getD_append _ _ _ _ h1, List.getD_append _ _ _ _ h2,
    fun he => absurd (he ▸ h1) (lt_irrefl _), fun he => absurd (he ▸ h2) (lt_irrefl _),
    ?_, fun r hr => List.getD_append _ _ _ _ hr⟩
  show (h ++ [Merge (h.getD r1 []) (h.getD r2 [])]).getD h.length [] = _
  rw [List.getD_append_right _ _ _ _ (le_refl _), Nat.sub_self]
  rfl

/-- Witness for C4 on a two-cell heap. -/
theorem heapMerge_frame_witness :
    (heapMerge [[("a".data, "1".data)], [("a".data, "2".data)]] 0 1).1.getD 0 [] =
      List.getD [[("a".data, "1".data)], [("a".data, "2".data)]] 0 [] ∧
    (heapMerge [[("a".data, "1".data)], [("a".data, "2".data)]] 0 1).1.getD 1 [] =
      List.getD [[("a".data, "1".data)], [("a".data, "2".data)]] 1 [] ∧
    (heapMerge [[("a".data, "1".data)], [("a".data, "2".data)]] 0 1).2 ≠ 0 ∧
    (heapMerge [[("a".data, "1".data)], [("a".data, "2".data)]] 0 1).2 ≠ 1 ∧
    (heapMerge [[("a".data, "1".data)], [("a".data, "2".data)]] 0 1).1.getD
        (heapMerge [[("a".data, "1".data)], [("a".data, "2".data)]] 0 1).2 [] =
      Merge (List.getD [[("a".data, "1".data)], [("a".data, "2".data)]] 0 [])
        (List.getD [[("a".data, "1".data)], [("a".data, "2".data)]] 1 []) ∧
    (∀ r, r < List.length [[("a".data, "1".data)], [("a".data, "2".data)]] →
      (heapMerge [[("a".data, "1".data)], [("a".data, "2".data)]] 0 1).1.getD r [] =
        List.getD [[("a".data, "1".data)], [("a".data, "2".data)]] r []) :=
  heapMerge_frame _ 0 1 (by decide) (by decide)

/-- C6: parsing the empty selector string succeeds with an empty map and no
error, whatever the validator does. -/
theorem convert_empty_selector {ε : Type} (vk : Str → Option ε)
    (vv : Str → Str → Option ε) :
    ConvertSelectorToLabelsMap vk vv [] = ([], none) := rfl

/-- C5: `Equals(a, b)` is true iff the sizes agree and every entry of `a`
occurs in `b`; that condition is equivalent to equality of the two maps as
key-to-value mappings, hence `Equals` is symmetric. -/
theorem equals_characterisation (a b : LabelSet)
    (nda : NodupKeys a) (ndb : NodupKeys b) :
    (Equals a b = true ↔
      a.length = b.length ∧ ∀ kv ∈ a, lookupVal b kv.1 = some kv.2) ∧
    (Equals a b = true ↔ ∀ k, lookupVal a k = lookupVal b k) ∧
    Equals a b = Equals b a := by
  refine ⟨equals_eq_true_iff_entries a b, equals_eq_true_iff_lookup nda ndb, ?_⟩
  rw [Bool.eq_iff_iff, equals_eq_true_iff_lookup nda ndb, equals_eq_true_iff_lookup ndb nda]
  constructor
  · intro hf k; exact (hf k).symm
  · intro hf k; exact (hf k).symm

/-- Witness for C5 on concrete sets `{a: 1, b: 2}` and `{b: 2, a: 1}`. -/
theorem equals_characterisation_witness :
    (Equals [("a".data, "1".data), ("b".data, "2".data)]
        [("b".data, "2".data), ("a".data, "1".data)] = true ↔
      List.length [("a".data, "1".data), ("b".data, "2".data)] =
          List.length [("b".data, "2".data), ("a".data, "1".data)] ∧
        ∀ kv ∈ [("a".data, "1".data), ("b".data, "2".data)],
          lookupVal [("b".data, "2".data), ("a".data, "1".data)] kv.1 = some kv.2) ∧
    (Equals [("a".data, "1".data), ("b".data, "2".data)]
        [("b".data, "2".data), ("a".data, "1".data)] = true ↔
      ∀ k, lookupVal [("a".data, "1".data), ("b".data, "2".data)] k =
        lookupVal [("b".data, "2".data), ("a".data, "1".data)] k) ∧
    Equals [("a".data, "1".data), ("b".data, "2".data)]
        [("b".data, "2".data), ("a".data, "1".data)] =
      Equals [("b".data, "2".data), ("a".data, "1".data)]
        [("a".data, "1".data), ("b".data, "2".data)] :=
  equals_characterisation _ _ (by decide) (by decide)

/-! ### Serialisation: C1 -/

/-- The serialisation C1 ascribes to `String()`: entries sorted
lexicographically **by key**, then rendered and joined.  This second
definition follows the spec's words, for comparison with the code's
`LabelSet.String` (which sorts the rendered strings instead). -/
def stringSortedByKeySpec (ls : LabelSet) : Str :=
  joinChar ','
    ((List.insertionSort (fun kv1 kv2 : Str × Str => kv1.1 ≤ kv2.1) ls).map renderEntry)

/-- Counterexample to C1 as stated: on the duplicate-free set
`{a: x, a-b: y}` the code sorts the rendered strings, and since the
character `-` orders before `=`, it emits `a-b=y,a=x`, while sorting by
key would emit `a=x,a-b=y`. -/
theorem string_counterexample_not_by_key :
    NodupKeys [("a".data, "x".data), ("a-b".data, "y".data)] ∧
    LabelSet.String [("a".data, "x".data), ("a-b".data, "y".data)] = "a-b=y,a=x".data ∧
    stringSortedByKeySpec [("a".data, "x".data), ("a-b".data, "y".data)] =
      "a=x,a-b=y".data ∧
    LabelSet.String [("a".data, "x".data), ("a-b".data, "y".data)] ≠
      stringSortedByKeySpec [("a".data, "x".data), ("a-b".data, "y".data)] :=
  ⟨by decide, by decide, by decide, by decide⟩

/-- C1 (amended): `String()` renders every entry as `key=value` and joins
the **rendered entries in lexicographic order of the full rendered
string** (which agrees with by-key order whenever no key contains a
character ordering below `=`) with single commas; the empty set gives the
empty string, and the output is invariant under permutation of the
underlying entries (iteration order). -/
theorem string_sorted_rendered (ls : LabelSet) :
    LabelSet.String ([] : LabelSet) = [] ∧
    (∃ l, l.Perm (ls.map renderEntry) ∧ List.Sorted (· ≤ ·) l ∧
      LabelSet.String ls = joinChar ',' l) ∧
    ∀ ls2 : LabelSet, ls.Perm ls2 → LabelSet.String ls = LabelSet.String ls2 := by
  refine ⟨rfl, ⟨List.insertionSort (· ≤ ·) (ls.map renderEntry),
    List.perm_insertionSort _ _, List.sorted_insertionSort _ _, rfl⟩, ?_⟩
  intro ls2 hperm
  have hent : (ls.map renderEntry).Perm (ls2.map renderEntry) := hperm.map renderEntry
  have hsorteq :
      List.insertionSort (· ≤ ·) (ls.map renderEntry) =
        List.insertionSort (· ≤ ·) (ls2.map renderEntry) :=
    List.eq_of_perm_of_sorted
      ((List.perm_insertionSort _ _).trans
        (hent.trans (List.perm_insertionSort _ _).symm))
      (List.sorted_insertionSort _ _) (List.sorted_insertionSort _ _)
  rw [LabelSet.String, LabelSet.String, hsorteq]

/-- Witness for C1 (amended): two orderings of the same two entries
serialise identically. -/
theorem string_sorted_rendered_witness :
    LabelSet.String [("b".data, "2".data), ("a".data, "1".data)] =
      LabelSet.String [("a".data, "1".data), ("b".data, "2".data)] :=
  (string_sorted_rendered [("b".data, "2".data), ("a".data, "1".data)]).2.2
    [("a".data, "1".data), ("b".data, "2".data)] (by decide)

/-! ### Parsing: loop lemmas -/

theorem parseLoop_cons_bad {ε : Type} (vk : Str → Option ε) (vv : Str → Str → Option ε)
    (t : Str) (rest : List Str) (acc : LabelSet)
    (hbad : (splitChar '=' t).length ≠ 2) :
    parseLoop vk vv (t :: rest) acc =
      (acc, some (ParseErr.invalidSelector (splitChar '=' t))) := by
  rw [parseLoop]
  cases hs : splitChar '=' t with
  | nil => rfl
  | cons x xs =>
    cases xs with
    | nil => rfl
    | cons y ys =>
      cases ys with
      | nil => exact absurd (by rw [hs]; rfl) hbad
      | cons z zs => rfl

theorem parseLoop_cons_good {ε : Type} (vk : Str → Option ε) (vv : Str → Str → Option ε)
    (t k0 v0 : Str) (rest : List Str) (acc : LabelSet)
    (hs : splitChar '=' t = [k0, v0]) (hk : vk (trimSpace k0) = none)
    (hv : vv (trimSpace k0) (trimSpace v0) = none) :
    parseLoop vk vv (t :: rest) acc =
      parseLoop vk vv rest (insertVal acc (trimSpace k0) (trimSpace v0)) := by
  rw [parseLoop, hs]
  simp only [hk, hv]

theorem tokenPairs_cons_good {ε : Type} (vk : Str → Option ε) (vv : Str → Str → Option ε)
    (t k0 v0 : Str) (rest : List Str)
    (hs : splitChar '=' t = [k0, v0]) (hk : vk (trimSpace k0) = none)
    (hv : vv (trimSpace k0) (trimSpace v0) = none) :
    tokenPairs vk vv (t :: rest) =
      (tokenPairs vk vv rest).map
        (fun ps => (trimSpace k0, trimSpace v0) :: ps) := by
  rw [tokenPairs, hs]
  simp only [hk, hv]

theorem tokenPairs_cons_inv {ε : Type} {vk : Str → Option ε} {vv : Str → Str → Option ε}
    {t : Str} {rest : List Str} {ps : List (Str × Str)}
    (h : tokenPairs vk vv (t :: rest) = some ps) :
    ∃ k0 v0 qs, splitChar '=' t = [k0, v0] ∧ vk (trimSpace k0) = none ∧
      vv (trimSpace k0) (trimSpace v0) = none ∧ tokenPairs vk vv rest = some qs ∧
      ps = (trimSpace k0, trimSpace v0) :: qs := by
  rw [tokenPairs] at h
  split at h
  next k0 v0 heq =>
    split at h
    next hk hv =>
      cases hrest : tokenPairs vk vv rest with
      | none => rw [hrest] at h; exact absurd h (by simp)
      | some qs =>
        rw [hrest] at h
        simp only [Option.map_some', Option.some.injEq] at h
        exact ⟨k0, v0, qs, heq, hk, hv, rfl, h.symm⟩
    next => exact absurd h (by simp)
  next => exact absurd h (by simp)

theorem parseLoop_append {ε : Type} (vk : Str → Option ε) (vv : Str → Str → Option ε) :
    ∀ (ts : List Str) (us : List Str) (acc : LabelSet) (ps : List (Str × Str)),
      tokenPairs vk vv ts = some ps →
      parseLoop vk vv (ts ++ us) acc =
        parseLoop vk vv us (ps.foldl (fun a kv => insertVal a kv.1 kv.2) acc) := by
  intro ts
  induction ts with
  | nil =>
    intro us acc ps h
    rw [show tokenPairs vk vv [] = some [] from rfl] at h
    simp only [Option.some.injEq] at h
    subst h
    rfl
  | cons t rest ih =>
    intro us acc ps h
    obtain ⟨k0, v0, qs, hs, hk, hv, hrest, hps⟩ := tokenPairs_cons_inv h
    subst hps
    rw [List.cons_append, parseLoop_cons_good vk vv t k0 v0 (rest ++ us) acc hs hk hv,
      ih us _ qs hrest]
    rfl

theorem parseLoop_all_good {ε : Type} (vk : Str → Option ε) (vv : Str → Str → Option ε)
    (ts : List Str) (acc : LabelSet) (ps : List (Str × Str))
    (h : tokenPairs vk vv ts = some ps) :
    parseLoop vk vv ts acc =
      (ps.foldl (fun a kv => insertVal a kv.1 kv.2) acc, none) := by
  have happ := parseLoop_append vk vv ts [] acc ps h
  rw [List.append_nil] at happ
  rw [happ]
  rfl

/-- C7: on a non-empty selector, if all tokens before position `i` split
and validate cleanly and the token at `i` does not split on `=` into
exactly two parts, parsing returns the `invalid selector` error for that
token together with the map accumulated from the preceding tokens (later
tokens are never reached). -/
theorem convert_syntax_error_first_bad_token {ε : Type} (vk : Str → Option ε)
    (vv : Str → Str → Option ε) (selector : Str) (i : Nat) (ps : List (Str × Str))
    (hne : selector ≠ [])
    (hi : i < (splitChar ',' selector).length)
    (hgood : tokenPairs vk vv ((splitChar ',' selector).take i) = some ps)
    (hbad : (splitChar '=' ((splitChar ',' selector)[i])).length ≠ 2) :
    ConvertSelectorToLabelsMap vk vv selector =
      (ps.foldl (fun a kv => insertVal a kv.1 kv.2) [],
       some (ParseErr.invalidSelector (splitChar '=' ((splitChar ',' selector)[i])))) := by
  have hlen : ¬selector.length = 0 := fun h0 => hne (List.length_eq_zero.1 h0)
  rw [ConvertSelectorToLabelsMap, if_neg hlen]
  have hsplit : splitChar ',' selector =
      (splitChar ',' selector).take i ++
        ((splitChar ',' selector)[i] :: (splitChar ',' selector).drop (i + 1)) := by
    rw [← List.drop_eq_getElem_cons hi, List.take_append_drop]
  conv_lhs => rw [hsplit]
  rw [parseLoop_append vk vv _ _ _ ps hgood, parseLoop_cons_bad vk vv _ _ _ hbad]

/-- Witness for C7: parsing `a=1,b,c=3` stops at the token `b` with the
partial map `{a: 1}`. -/
theorem convert_syntax_error_first_bad_token_witness :
    ConvertSelectorToLabelsMap (fun _ => (none : Option Unit)) (fun _ _ => none)
        "a=1,b,c=3".data =
      ([("a".data, "1".data)], some (ParseErr.invalidSelector ["b".data])) :=
  (convert_syntax_error_first_bad_token (fun _ => (none : Option Unit)) (fun _ _ => none)
      ("a=1,b,c=3".data) 1 [("a".data, "1".data)] (by decide) (by decide) (by decide)
      (by decide)).trans (by decide)

/-- C8: a non-empty selector all of whose tokens split and validate
cleanly parses without error — duplicated keys included; the result has no
duplicate keys and maps every key to the value of its latest occurrence
(lookup in the reversed pair list). -/
theorem convert_duplicate_keys_last_wins {ε : Type} (vk : Str → Option ε)
    (vv : Str → Str → Option ε) (selector : Str) (ps : List (Str × Str))
    (hne : selector ≠ [])
    (hgood : tokenPairs vk vv (splitChar ',' selector) = some ps) :
    (ConvertSelectorToLabelsMap vk vv selector).2 = none ∧
    NodupKeys (ConvertSelectorToLabelsMap vk vv selector).1 ∧
    ∀ k, lookupVal (ConvertSelectorToLabelsMap vk vv selector).1 k =
      lookupVal ps.reverse k := by
  have hlen : ¬selector.length = 0 := fun h0 => hne (List.length_eq_zero.1 h0)
  have hconv : ConvertSelectorToLabelsMap vk vv selector =
      (ps.foldl (fun a kv => insertVal a kv.1 kv.2) [], none) := by
    rw [ConvertSelectorToLabelsMap, if_neg hlen, parseLoop_all_good vk vv _ _ ps hgood]
  rw [hconv]
  exact ⟨rfl, nodupKeys_foldl_insert ps (by simp [NodupKeys, keys]),
    fun k => lookupVal_foldl_insert_nil ps k⟩

/-- Witness for C8: parsing `a=1,a=2` succeeds and the duplicated key `a`
takes the later value `2`. -/
theorem convert_duplicate_keys_last_wins_witness :
    (ConvertSelectorToLabelsMap (fun _ => (none : Option Unit)) (fun _ _ => none)
        "a=1,a=2".data).2 = none ∧
    NodupKeys (ConvertSelectorToLabelsMap (fun _ => (none : Option Unit)) (fun _ _ => none)
        "a=1,a=2".data).1 ∧
    ∀ k, lookupVal (ConvertSelectorToLabelsMap (fun _ => (none : Option Unit))
        (fun _ _ => none) "a=1,a=2".data).1 k =
      lookupVal ([("a".data, "1".data), ("a".data, "2".data)] : LabelSet).reverse k :=
  convert_duplicate_keys_last_wins (fun _ => (none : Option Unit)) (fun _ _ => none)
    ("a=1,a=2".data) [("a".data, "1".data), ("a".data, "2".data)] (by decide) (by decide)

/-! ### Round-trip: split/join lemmas -/

theorem splitCharAux_no_sep {sep : Char} :
    ∀ {s : Str}, sep ∉ s → ∀ acc : Str, splitCharAux sep s acc = [acc.reverse ++ s] := by
  intro s
  induction s with
  | nil => intro _ acc; simp [splitCharAux]
  | cons c rest ih =>
    intro hns acc
    have hc : ¬c = sep := fun h => hns (by rw [h]; exact List.mem_cons_self _ _)
    rw [splitCharAux, if_neg hc, ih (fun hm => hns (List.mem_cons_of_mem c hm))]
    simp

theorem splitChar_no_sep {sep : Char} {s : Str} (hns : sep ∉ s) :
    splitChar sep s = [s] := by
  rw [splitChar, splitCharAux_no_sep hns]
  rfl

theorem splitCharAux_sep_append {sep : Char} :
    ∀ {s : Str}, sep ∉ s → ∀ (r acc : Str),
      splitCharAux sep (s ++ sep :: r) acc = (acc.reverse ++ s) :: splitChar sep r := by
  intro s
  induction s with
  | nil =>
    intro _ r acc
    rw [List.nil_append, splitCharAux, if_pos rfl]
    simp [splitChar]
  | cons c rest ih =>
    intro hns r acc
    have hc : ¬c = sep := fun h => hns (by rw [h]; exact List.mem_cons_self _ _)
    rw [List.cons_append, splitCharAux, if_neg hc,
      ih (fun hm => hns (List.mem_cons_of_mem c hm)) r (c :: acc)]
    simp

theorem splitChar_joinChar {sep : Char} :
    ∀ {parts : List Str}, parts ≠ [] → (∀ p ∈ parts, sep ∉ p) →
      splitChar sep (joinChar sep parts) = parts := by
  intro parts
  induction parts with
  | nil => intro h _; exact absurd rfl h
  | cons s rest ih =>
    intro _ hns
    cases rest with
    | nil =>
      rw [joinChar]
      exact splitChar_no_sep (hns s (List.mem_cons_self _ _))
    | cons t r =>
      rw [joinChar, splitChar,
        splitCharAux_sep_append (hns s (List.mem_cons_self _ _)) _ []]
      rw [ih (by simp) (fun p hp => hns p (List.mem_cons_of_mem s hp))]
      simp

theorem splitChar_renderEntry {k v : Str} (hk : '=' ∉ k) (hv : '=' ∉ v) :
    splitChar '=' (renderEntry (k, v)) = [k, v] := by
  rw [renderEntry, splitChar, splitCharAux_sep_append hk v []]
  rw [splitChar_no_sep hv]
  rfl

theorem renderEntry_ne_nil (kv : Str × Str) : renderEntry kv ≠ [] := by
  obtain ⟨k, v⟩ := kv
  cases k with
  | nil => simp [renderEntry]
  | cons c rest => simp [renderEntry]

/-- Decode one well-formed token back into its (trimmed) key/value pair. -/
def decodeToken (t : Str) : Str × Str :=
  match splitChar '=' t with
  | [k0, v0] => (trimSpace k0, trimSpace v0)
  | _ => ([], [])

theorem decodeToken_renderEntry {kv : Str × Str} (hk : '=' ∉ kv.1) (hv : '=' ∉ kv.2)
    (htk : trimSpace kv.1 = kv.1) (htv : trimSpace kv.2 = kv.2) :
    decodeToken (renderEntry kv) = kv := by
  obtain ⟨k, v⟩ := kv
  rw [decodeToken, splitChar_renderEntry hk hv]
  simp [htk, htv]

theorem tokenPairs_of_rendered {ε : Type} (vk : Str → Option ε) (vv : Str → Str → Option ε)
    (P : Str × Str → Prop)
    (hP : ∀ kv, P kv → '=' ∉ kv.1 ∧ '=' ∉ kv.2 ∧ trimSpace kv.1 = kv.1 ∧
      trimSpace kv.2 = kv.2 ∧ vk kv.1 = none ∧ vv kv.1 kv.2 = none) :
    ∀ ts : List Str, (∀ t ∈ ts, ∃ kv, P kv ∧ t = renderEntry kv) →
      tokenPairs vk vv ts = some (ts.map decodeToken) := by
  intro ts
  induction ts with
  | nil => intro _; rfl
  | cons t rest ih =>
    intro hmem
    obtain ⟨kv, hkv, ht⟩ := hmem t (List.mem_cons_self _ _)
    obtain ⟨h1, h2, h3, h4, h5, h6⟩ := hP kv hkv
    obtain ⟨k, v⟩ := kv
    subst ht
    have hs : splitChar '=' (renderEntry (k, v)) = [k, v] := splitChar_renderEntry h1 h2
    rw [tokenPairs_cons_good vk vv _ k v rest hs (by rw [h3]; exact h5)
        (by rw [h3, h4]; exact h6),
      ih (fun t2 ht2 => hmem t2 (List.mem_cons_of_mem _ ht2))]
    rw [List.map_cons, decodeToken_renderEntry h1 h2 h3 h4]
    simp only [Option.map_some', Option.some.injEq]
    rw [show trimSpace k = k from h3, show trimSpace v = v from h4]

/-- C9: round-trip.  For a duplicate-free LabelSet whose keys and values
contain neither `=` nor `,`, carry no surrounding whitespace, and pass the
external validator, parsing its `String()` output succeeds and yields a
map `Equals`-equal to the original (in both orientations). -/
theorem convert_string_roundtrip {ε : Type} (vk : Str → Option ε)
    (vv : Str → Str → Option ε) (ls : LabelSet) (nd : NodupKeys ls)
    (hcond : ∀ kv ∈ ls, ',' ∉ kv.1 ∧ '=' ∉ kv.1 ∧ ',' ∉ kv.2 ∧ '=' ∉ kv.2 ∧
      trimSpace kv.1 = kv.1 ∧ trimSpace kv.2 = kv.2 ∧
      vk kv.1 = none ∧ vv kv.1 kv.2 = none) :
    ∃ m, ConvertSelectorToLabelsMap vk vv (LabelSet.String ls) = (m, none) ∧
      Equals m ls = true ∧ Equals ls m = true := by
  by_cases hnil : ls = []
  · subst hnil
    exact ⟨[], rfl, rfl, rfl⟩
  · have hpermS : (List.insertionSort (· ≤ ·) (ls.map renderEntry)).Perm
        (ls.map renderEntry) := List.perm_insertionSort _ _
    have hmemS : ∀ t ∈ List.insertionSort (· ≤ ·) (ls.map renderEntry),
        ∃ kv, kv ∈ ls ∧ t = renderEntry kv := by
      intro t ht
      obtain ⟨kv, hkv, hre⟩ := List.mem_map.1 (hpermS.mem_iff.1 ht)
      exact ⟨kv, hkv, hre.symm⟩
    have hSne : List.insertionSort (· ≤ ·) (ls.map renderEntry) ≠ [] := by
      intro h0
      have hl : (List.insertionSort (· ≤ ·) (ls.map renderEntry)).length = ls.length := by
        rw [List.length_insertionSort, List.length_map]
      rw [h0] at hl
      exact hnil (List.length_eq_zero.1 hl.symm)
    have hString : LabelSet.String ls =
        joinChar ',' (List.insertionSort (· ≤ ·) (ls.map renderEntry)) := rfl
    have hnocomma : ∀ p ∈ List.insertionSort (· ≤ ·) (ls.map renderEntry), ',' ∉ p := by
      intro p hp hmem
      obtain ⟨kv, hkv, hre⟩ := hmemS p hp
      obtain ⟨hc1, _, hc2, _, _, _, _, _⟩ := hcond kv hkv
      subst hre
      rw [renderEntry] at hmem
      rcases List.mem_append.1 hmem with h | h
      · exact hc1 h
      · rcases List.mem_cons.1 h with h | h
        · exact absurd h (by decide)
        · exact hc2 h
    have hjoinne : joinChar ',' (List.insertionSort (· ≤ ·) (ls.map renderEntry)) ≠ [] := by
      cases hS : List.insertionSort (· ≤ ·) (ls.map renderEntry) with
      | nil => exact absurd hS hSne
      | cons s rest =>
        cases rest with
        | nil =>
          rw [joinChar]
          obtain ⟨kv, _, hre⟩ := hmemS s (by rw [hS]; exact List.mem_cons_self _ _)
          rw [hre]
          exact renderEntry_ne_nil kv
        | cons t r =>
          rw [joinChar]
          intro h0
          rcases List.append_eq_nil.1 h0 with ⟨_, h2⟩
          exact List.cons_ne_nil _ _ h2
    have hsplitS : splitChar ',' (LabelSet.String ls) =
        List.insertionSort (· ≤ ·) (ls.map renderEntry) := by
      rw [hString]
      exact splitChar_joinChar hSne hnocomma
    have htp : tokenPairs vk vv (List.insertionSort (· ≤ ·) (ls.map renderEntry)) =
        some ((List.insertionSort (· ≤ ·) (ls.map renderEntry)).map decodeToken) := by
      refine tokenPairs_of_rendered vk vv (fun kv => kv ∈ ls) ?_ _ hmemS
      intro kv hkv
      obtain ⟨_, h2, _, h4, h5, h6, h7, h8⟩ := hcond kv hkv
      exact ⟨h2, h4, h5, h6, h7, h8⟩
    have hqs_perm : (((List.insertionSort (· ≤ ·) (ls.map renderEntry)).map
        decodeToken)).Perm ls := by
      have h1 := hpermS.map decodeToken
      rw [List.map_map] at h1
      have h2 : ls.map (decodeToken ∘ renderEntry) = ls := by
        have h3 : ∀ kv ∈ ls, (decodeToken ∘ renderEntry) kv = id kv := by
          intro kv hkv
          obtain ⟨_, hc2, _, hc4, hc5, hc6, _, _⟩ := hcond kv hkv
          exact decodeToken_renderEntry hc2 hc4 hc5 hc6
        rw [List.map_congr_left h3, List.map_id]
      rw [h2] at h1
      exact h1
    have ndqs : NodupKeys ((List.insertionSort (· ≤ ·) (ls.map renderEntry)).map
        decodeToken) := nodupKeys_of_perm hqs_perm.symm nd
    have hlenne : ¬(LabelSet.String ls).length = 0 := by
      rw [hString]
      intro h0
      exact hjoinne (List.length_eq_zero.1 h0)
    refine ⟨(List.insertionSort (· ≤ ·) (ls.map renderEntry)).map decodeToken, ?_,
      equals_eq_true_of_perm ndqs hqs_perm, equals_eq_true_of_perm nd hqs_perm.symm⟩
    rw [ConvertSelectorToLabelsMap, if_neg hlenne, hsplitS,
      parseLoop_all_good vk vv _ _ _ htp, foldl_insert_nil_of_nodupKeys ndqs]

/-- Witness for C9: the set `{b: 2, a: 1}` round-trips through
`String()` and parsing. -/
theorem convert_string_roundtrip_witness :
    ∃ m, ConvertSelectorToLabelsMap (fun _ => (none : Option Unit)) (fun _ _ => none)
        (LabelSet.String [("b".data, "2".data), ("a".data, "1".data)]) = (m, none) ∧
      Equals m [("b".data, "2".data), ("a".data, "1".data)] = true ∧
      Equals [("b".data, "2".data), ("a".data, "1".data)] m = true :=
  convert_string_roundtrip (fun _ => (none : Option Unit)) (fun _ _ => none)
    [("b".data, "2".data), ("a".data, "1".data)] (by decide) (by decide)
